import Mathlib

set_option maxRecDepth 8192

/-!
Verification of the cincan provenance-graph core
(`src/cincan/command_inspector.py`, `src/cincan/frontend.py`).

The traversal state of the Python code (a shared mutable `set` of visited
keys, threaded through the recursive calls of `fanin` / `fanout`) is embedded
by explicit state passing: each call takes the current visited list and
returns the updated one.  Python's unbounded recursion is embedded with a
fuel parameter (`none` = fuel exhausted); the termination claim is settled
by proving that a concrete finite fuel always suffices.  A ghost counter of
`hash_of` invocations is threaded alongside, so that claims about when the
file contents get hashed become statements about the counter; the counter
never influences the computed tree or visited set.
-/

/-- `FileLog` from `cincan/command_log.py` (file not under `src/`).
Modelled from the spec: a FileRecord is a filesystem path (stored as a
posix-style string) together with a 128-bit content digest, hex-encoded,
with the empty string permitted for unhashable files.  The digest field is
named `md5` as in the source accesses `f.md5` (command_inspector.py:61,80). -/
structure FileLog where
  path : String
  md5 : String
deriving DecidableEq, Repr

/-- `CommandLog` from `cincan/command_log.py` (file not under `src/`).
Modelled from the spec: an ExecutionLogEntry holds the argv-style command,
the integer exit code, the input and output FileRecord collections and a
timestamp string; field names follow the source accesses
(`cmd.command`, `log.exit_code`, `cmd.in_files`, `cmd.out_files`). -/
structure CommandLog where
  command : List String
  exit_code : Int
  in_files : List FileLog
  out_files : List FileLog
  timestamp : String
deriving DecidableEq, Repr

mutual
/-- `FileDependency` (command_inspector.py:10-15): a file node of the
dependency tree, holding the (work-dir-resolved) path, the digest, the
direction flag `out` and the list of child command nodes. -/
inductive FileDependency : Type where
  | mk : String → String → Bool → List CommandDependency → FileDependency
/-- `CommandDependency` (command_inspector.py:24-28): a command node of the
dependency tree, holding the log entry, the direction flag `out` and the
list of child file nodes. -/
inductive CommandDependency : Type where
  | mk : CommandLog → Bool → List FileDependency → CommandDependency
end

def FileDependency.file : FileDependency → String
  | .mk f _ _ _ => f

def FileDependency.digest : FileDependency → String
  | .mk _ d _ _ => d

def FileDependency.out : FileDependency → Bool
  | .mk _ _ o _ => o

def FileDependency.next : FileDependency → List CommandDependency
  | .mk _ _ _ n => n

def CommandDependency.command : CommandDependency → CommandLog
  | .mk c _ _ => c

def CommandDependency.out : CommandDependency → Bool
  | .mk _ o _ => o

def CommandDependency.next : CommandDependency → List FileDependency
  | .mk _ _ n => n

/-- The `CommandInspector` (command_inspector.py:37-40) together with its
ambient environment.  `log` is the entry list of the `CommandLogIndex` in
insertion order (modelled from the spec: an append-only, insertion-ordered
store).  `work_path` abstracts `CommandInspector.__work_path`
(command_inspector.py:42-48), whose `relative_to`/`resolve` behaviour
depends on the filesystem; no claim depends on it, so the theorems hold for
every such function.  `fs` models the filesystem seen by `hash_of`: `none`
for a missing or non-regular file, `some bytes` for a regular file's
contents.  `md5hex` abstracts `hashlib.md5(...).hexdigest()`. -/
structure Inspector where
  log : List CommandLog
  work_path : String → String
  fs : String → Option (List Nat)
  md5hex : List Nat → String

/-- `CommandLogIndex.list_entries` (called at command_inspector.py:60,79;
the class itself is not under `src/`).  Modelled from the spec: produces the
entries in insertion order, or reverse-insertion order when `reverse`. -/
def list_entries (ins : Inspector) (reverse : Bool) : List CommandLog :=
  if reverse then ins.log.reverse else ins.log

/-- `CommandInspector.hash_of` (command_inspector.py:98-108): empty string
for a missing or non-regular file, otherwise the md5 hexdigest of the
file's bytes. -/
def hash_of (ins : Inspector) (file : String) : String :=
  match ins.fs file with
  | none => ""
  | some bs => ins.md5hex bs

/-- `digest or self.hash_of(file)` (command_inspector.py:52,71) with the
ghost hash counter: Python's `or` falls through to `hash_of` when `digest`
is `None` *or* the empty string (both are falsy).  The second component
counts the `hash_of` invocations performed (0 or 1). -/
def digestOr (ins : Inspector) (digest : Option String) (file : String) : String × Nat :=
  match digest with
  | some d => if d = "" then (hash_of ins file, 1) else (d, 0)
  | none => (hash_of ins file, 1)

/-- The visitation key `file.as_posix() + ':' + file_digest`
(command_inspector.py:54,73). -/
def fileKey (file fdigest : String) : String :=
  file ++ ":" ++ fdigest

/-- The inner loop `for file in cmd.in_files: cmd_dep.next.append(self.fanin(
file.path, already_covered, file.md5))` (command_inspector.py:64-65, and the
`out_files` mirror at 83-84), for a generic recursive step `go`:
each record in turn is expanded by `go` on its path and stored digest,
threading the visited set and the ghost hash counter. -/
def fanFiles (go : String → List String → Option String →
    Option (FileDependency × List String × Nat)) :
    List FileLog → List String → Option (List FileDependency × List String × Nat)
  | [], covered => some ([], covered, 0)
  | f :: rest, covered =>
    match go f.path covered (some f.md5) with
    | none => none
    | some (d, cov1, h1) =>
      match fanFiles go rest cov1 with
      | none => none
      | some (ds, cov2, h2) => some (d :: ds, cov2, h1 + h2)

/-- The store scan `for cmd in self.log.list_entries(reverse=True): ...`
(command_inspector.py:60-66 and 79-85), for a generic recursive step `go`:
an entry matches when `any(filter(lambda f: f.md5 == file_digest,
matchFiles cmd))`; a matching entry contributes one `CommandDependency`
whose children come from `fanFiles` over `recFiles cmd`. -/
def fanCmds (go : String → List String → Option String →
    Option (FileDependency × List String × Nat))
    (matchFiles recFiles : CommandLog → List FileLog) (fdigest : String) (out : Bool) :
    List CommandLog → List String → Option (List CommandDependency × List String × Nat)
  | [], covered => some ([], covered, 0)
  | c :: rest, covered =>
    if (matchFiles c).any (fun f => f.md5 == fdigest) then
      match fanFiles go (recFiles c) covered with
      | none => none
      | some (ds, cov1, h1) =>
        match fanCmds go matchFiles recFiles fdigest out rest cov1 with
        | none => none
        | some (cs, cov2, h2) => some (CommandDependency.mk c out ds :: cs, cov2, h1 + h2)
    else fanCmds go matchFiles recFiles fdigest out rest covered

/-- The file sets an entry is matched against: `cmd.out_files` for fan-in
(command_inspector.py:61), `cmd.in_files` for fan-out (line 80). -/
def dirMatchFiles (dir : Bool) (c : CommandLog) : List FileLog :=
  if dir then c.in_files else c.out_files

/-- The file sets recursed into: `cmd.in_files` for fan-in
(command_inspector.py:64), `cmd.out_files` for fan-out (line 83). -/
def dirRecFiles (dir : Bool) (c : CommandLog) : List FileLog :=
  if dir then c.out_files else c.in_files

/-- The common body of `CommandInspector.fanin` (command_inspector.py:50-67,
`dir = false`) and `CommandInspector.fanout` (lines 69-86, `dir = true`),
which are verbatim mirrors of each other; fuel-indexed.
Line by line: compute `file_digest` via `digest or hash_of` (ghost-counting
the hash), build the anchor node, compute the visitation key; if the key is
already covered return the anchor with no children, otherwise add the key
and scan the store in reverse, attaching one command child per matching
entry.  Returns the tree, the final visited set, and the hash counter. -/
def fanFuel (ins : Inspector) (dir : Bool) :
    Nat → String → List String → Option String →
    Option (FileDependency × List String × Nat)
  | 0, _, _, _ => none
  | n + 1, file, covered, digest =>
    let fd := digestOr ins digest file
    let file_check := fileKey file fd.1
    if file_check ∈ covered then
      some (FileDependency.mk (ins.work_path file) fd.1 dir [], covered, fd.2)
    else
      match fanCmds (fun fl cov dg => fanFuel ins dir n fl cov dg)
          (dirMatchFiles dir) (dirRecFiles dir) fd.1 dir
          (list_entries ins true) (file_check :: covered) with
      | none => none
      | some (cs, cov2, h2) =>
        some (FileDependency.mk (ins.work_path file) fd.1 dir cs, cov2, fd.2 + h2)

/-- `CommandInspector.fanin` (command_inspector.py:50-67), fuel-indexed. -/
def faninFuel (ins : Inspector) (n : Nat) (file : String) (covered : List String)
    (digest : Option String) : Option (FileDependency × List String × Nat) :=
  fanFuel ins false n file covered digest

/-- `CommandInspector.fanout` (command_inspector.py:69-86), fuel-indexed. -/
def fanoutFuel (ins : Inspector) (n : Nat) (file : String) (covered : List String)
    (digest : Option String) : Option (FileDependency × List String × Nat) :=
  fanFuel ins true n file covered digest

/-- All visitation keys that the recursive calls of `fanFuel ins dir` can
ever be invoked on: one key per record of the store's recursed-into file
sets, with the digest resolved exactly as the recursive call resolves it. -/
def recKeys (ins : Inspector) (dir : Bool) : List String :=
  (ins.log.flatMap (dirRecFiles dir)).map
    (fun f => fileKey f.path (digestOr ins (some f.md5) f.path).1)

/-- Termination measure: the number of keys reachable by the traversal that
are not yet in the visited set. -/
def fanMeasure (ins : Inspector) (dir : Bool) (file : String) (covered : List String)
    (digest : Option String) : Nat :=
  ((insert (fileKey file (digestOr ins digest file).1) (recKeys ins dir).toFinset) \
    covered.toFinset).card

/-- `quote_args` from `cincan/commands.py` (file not under `src/`).
Modelled from the spec: the argument vector is re-quoted so that it is
shell-safe and losslessly reconstructible; modelled as wrapping an argument
in double quotes (escaping embedded quotes) when it is empty or contains a
space or a quote, and keeping it verbatim otherwise.  No claim depends on
the exact quoting scheme. -/
def quote_args (args : List String) : List String :=
  args.map (fun a =>
    if a = "" ∨ a.contains ' ' ∨ a.contains '"' then
      "\"" ++ (a.replace "\"" "\\\"") ++ "\""
    else a)

mutual
/-- `FileDependency.__str__` (command_inspector.py:17-21): the label is the
path, followed by a space and the first 16 digest characters when the
digest is non-empty, or by a literal `/` when it is empty; each rendered
child has its newlines indented by four spaces and is prefixed by the
connector `"\n|-- "` (fan-out) or `"\n^-- "` (fan-in). -/
def fdStr : FileDependency → String
  | .mk file digest out next =>
    let file_string := file ++ (if digest = "" then "/" else " " ++ digest.take 16)
    let next_strings := cdStrs next
    let p := if out then "\n|-- " else "\n^-- "
    file_string ++ (if next_strings = [] then "" else p ++ String.intercalate p next_strings)
/-- `CommandDependency.__str__` (command_inspector.py:30-34): the label is
the re-quoted command joined by spaces; each rendered child has its
newlines indented by four spaces and is prefixed by the connector
`"\n|-->"` (fan-out) or `"\n^---"` (fan-in). -/
def cdStr : CommandDependency → String
  | .mk cmd out next =>
    let cmd_string := String.intercalate " " (quote_args cmd.command)
    let next_strings := fdStrs next
    let p := if out then "\n|-->" else "\n^---"
    cmd_string ++ (if next_strings = [] then "" else p ++ String.intercalate p next_strings)
/-- `[str(s).replace('\n', '\n    ') for s in self.next]` over command
children (command_inspector.py:19). -/
def cdStrs : List CommandDependency → List String
  | [] => []
  | c :: rest => (cdStr c).replace "\n" "\n    " :: cdStrs rest
/-- `[str(s).replace('\n', '\n    ') for s in self.next]` over file
children (command_inspector.py:32). -/
def fdStrs : List FileDependency → List String
  | [] => []
  | d :: rest => (fdStr d).replace "\n" "\n    " :: fdStrs rest
end

mutual
/-- The (path, digest) pairs of the file nodes of a tree that carry at
least one command child ("expanded" nodes), in preorder. -/
def fdExpanded : FileDependency → List (String × String)
  | .mk f d _ next => (if next.isEmpty then [] else [(f, d)]) ++ cdsExpanded next
def cdExpanded : CommandDependency → List (String × String)
  | .mk _ _ next => fdsExpanded next
def cdsExpanded : List CommandDependency → List (String × String)
  | [] => []
  | c :: rest => cdExpanded c ++ cdsExpanded rest
def fdsExpanded : List FileDependency → List (String × String)
  | [] => []
  | d :: rest => fdExpanded d ++ fdsExpanded rest
end

/-- The visitation key of a (path, digest) pair, as the code computes it. -/
def pairKey (pr : String × String) : String :=
  fileKey pr.1 pr.2

/-- Invariant of the shared visited set relative to one traversal step:
the expanded (path, digest) pairs `prs` all have their keys recorded in the
final visited set `cov2`, none of them was visited before the step
(`cov`), and no key is expanded twice. -/
def expOk (cov cov2 : List String) (prs : List (String × String)) : Prop :=
  (∀ pr ∈ prs, pairKey pr ∈ cov2 ∧ pairKey pr ∉ cov) ∧ (prs.map pairKey).Nodup

/-- Summary of a `ToolStream` (frontend.py:27-37) once the io loop has
finished: the total byte count seen and the md5 hexdigest of those bytes. -/
structure ToolStreamStat where
  data_length : Nat
  md5 : String
deriving DecidableEq, Repr

/-- The log bookkeeping at the end of `ToolImage.__container_exec`
(frontend.py:175 and 246-265): the entry's command is `[self.name] +
user_cmd`; when the exit code is 0, a `/dev/stdin` record (with the digest
of the bytes read) is appended to `in_files` when stdin was read and
non-empty, and `/dev/stdout` / `/dev/stderr` records are appended to
`out_files` when the stream existed and produced at least one byte.
`CommandLog.__init__` starting with empty file lists is modelled from the
spec (command_log.py is not under `src/`). -/
def container_exec_log (name : String) (user_cmd : List String) (exit_code : Int)
    (stdin_s stdout_s : Option ToolStreamStat) (stderr_s : ToolStreamStat) : CommandLog :=
  let base : CommandLog := ⟨name :: user_cmd, exit_code, [], [], ""⟩
  if exit_code = 0 then
    let ins := match stdin_s with
      | some s => if s.data_length ≠ 0 then [FileLog.mk "/dev/stdin" s.md5] else []
      | none => []
    let outs := (match stdout_s with
      | some s => if s.data_length ≠ 0 then [FileLog.mk "/dev/stdout" s.md5] else []
      | none => []) ++
      (if stderr_s.data_length ≠ 0 then [FileLog.mk "/dev/stderr" stderr_s.md5] else [])
    ⟨name :: user_cmd, exit_code, ins, outs, ""⟩
  else base

/-! Concrete inspectors used by the witnesses and counterexamples. -/

/-- A trivial work-path resolution (work dir `/`, all paths already
relative): the identity. -/
def wpId : String → String := fun p => p

/-- An empty filesystem: every path is missing. -/
def fsEmpty : String → Option (List Nat) := fun _ => none

/-- A degenerate hexdigest function (never consulted on meaningful input in
the examples that use it). -/
def md5Triv : List Nat → String := fun _ => ""

/-- Entry: `c1` reads `i1` (digest `A`) and writes `p1` (digest `D`). -/
def entry1 : CommandLog := ⟨["c1"], 0, [⟨"i1", "A"⟩], [⟨"p1", "D"⟩], ""⟩

/-- Entry: `c2` reads `i2` (digest `B`) and writes `p2` (digest `D`). -/
def entry2 : CommandLog := ⟨["c2"], 0, [⟨"i2", "B"⟩], [⟨"p2", "D"⟩], ""⟩

/-- A store with two entries producing the same digest `D` at different
paths. -/
def insW : Inspector := ⟨[entry1, entry2], wpId, fsEmpty, md5Triv⟩

/-- Entry: `c3` reads `a` (digest `Da`) and writes `b` (digest `Db`). -/
def entry3 : CommandLog := ⟨["c3"], 0, [⟨"a", "Da"⟩], [⟨"b", "Db"⟩], ""⟩

/-- A one-entry store for the direction-symmetry witness. -/
def insSym : Inspector := ⟨[entry3], wpId, fsEmpty, md5Triv⟩

/-- A store whose single entry carries an output record with an *empty*
digest. -/
def insEmptyDigest : Inspector := ⟨[⟨["c"], 0, [], [⟨"x", ""⟩], ""⟩], wpId, fsEmpty, md5Triv⟩

/-- A store whose single entry consumes a record with an *empty* digest. -/
def insEmptyInput : Inspector := ⟨[⟨["c"], 0, [⟨"x", ""⟩], [⟨"o", "D"⟩], ""⟩], wpId, fsEmpty, md5Triv⟩

/-! ### Helper lemmas about the traversal -/

theorem fanFiles_subset (go : String → List String → Option String →
    Option (FileDependency × List String × Nat))
    (hgo : ∀ fl c dg r, go fl c dg = some r → c ⊆ r.2.1) :
    ∀ (fls : List FileLog) (cov : List String) r,
    fanFiles go fls cov = some r → cov ⊆ r.2.1 := by
  intro fls
  induction fls with
  | nil =>
    intro cov r h
    simp only [fanFiles] at h
    injection h with h
    subst h
    exact fun x hx => hx
  | cons f rest ih =>
    intro cov r h
    simp only [fanFiles] at h
    cases h1 : go f.path cov (some f.md5) with
    | none => simp only [h1] at h; exact Option.noConfusion h
    | some r1 =>
      obtain ⟨d1, cov1, n1⟩ := r1
      simp only [h1] at h
      cases h2 : fanFiles go rest cov1 with
      | none => simp only [h2] at h; exact Option.noConfusion h
      | some r2 =>
        obtain ⟨ds2, cov2, n2⟩ := r2
        simp only [h2] at h
        injection h with h
        subst h
        exact fun x hx => ih _ _ h2 (hgo _ _ _ _ h1 hx)

theorem fanCmds_subset (go : String → List String → Option String →
    Option (FileDependency × List String × Nat))
    (matchFiles recFiles : CommandLog → List FileLog) (fdigest : String) (out : Bool)
    (hgo : ∀ fl c dg r, go fl c dg = some r → c ⊆ r.2.1) :
    ∀ (cmds : List CommandLog) (cov : List String) r,
    fanCmds go matchFiles recFiles fdigest out cmds cov = some r → cov ⊆ r.2.1 := by
  intro cmds
  induction cmds with
  | nil =>
    intro cov r h
    simp only [fanCmds] at h
    injection h with h
    subst h
    exact fun x hx => hx
  | cons c rest ih =>
    intro cov r h
    simp only [fanCmds] at h
    by_cases hm : (matchFiles c).any (fun f => f.md5 == fdigest)
    · rw [if_pos hm] at h
      cases h1 : fanFiles go (recFiles c) cov with
      | none => simp only [h1] at h; exact Option.noConfusion h
      | some r1 =>
        obtain ⟨ds1, cov1, n1⟩ := r1
        simp only [h1] at h
        cases h2 : fanCmds go matchFiles recFiles fdigest out rest cov1 with
        | none => simp only [h2] at h; exact Option.noConfusion h
        | some r2 =>
          obtain ⟨cs2, cov2, n2⟩ := r2
          simp only [h2] at h
          injection h with h
          subst h
          exact fun x hx => ih _ _ h2 (fanFiles_subset go hgo _ _ _ h1 hx)
    · rw [if_neg hm] at h
      exact ih _ _ h

theorem fanFuel_subset (ins : Inspector) (dir : Bool) :
    ∀ (n : Nat) (file : String) (cov : List String) (dg : Option String) r,
    fanFuel ins dir n file cov dg = some r → cov ⊆ r.2.1 := by
  intro n
  induction n with
  | zero => intro file cov dg r h; exact absurd h (by simp [fanFuel])
  | succ n ih =>
    intro file cov dg r h
    simp only [fanFuel] at h
    by_cases hv : fileKey file (digestOr ins dg file).1 ∈ cov
    · rw [if_pos hv] at h
      injection h with h
      subst h
      exact fun x hx => hx
    · rw [if_neg hv] at h
      cases h1 : fanCmds (fun fl c d => fanFuel ins dir n fl c d)
          (dirMatchFiles dir) (dirRecFiles dir) (digestOr ins dg file).1 dir
          (list_entries ins true) (fileKey file (digestOr ins dg file).1 :: cov) with
      | none => simp only [h1] at h; exact Option.noConfusion h
      | some r1 =>
        obtain ⟨cs1, cov1, n1⟩ := r1
        simp only [h1] at h
        injection h with h
        subst h
        exact fun x hx =>
          fanCmds_subset _ _ _ _ _ (fun fl c d rr hh => ih fl c d rr hh) _ _ _ h1
            (List.mem_cons_of_mem _ hx)

/-- Unfolding of the visited branch (command_inspector.py:56-57, 75-76):
the anchor node is returned immediately with no children, the visited set
unchanged. -/
theorem fanFuel_visited (ins : Inspector) (dir : Bool) (n : Nat) (file : String)
    (cov : List String) (dg : Option String)
    (hv : fileKey file (digestOr ins dg file).1 ∈ cov) :
    fanFuel ins dir (n + 1) file cov dg =
      some (FileDependency.mk (ins.work_path file) (digestOr ins dg file).1 dir [],
        cov, (digestOr ins dg file).2) := by
  simp only [fanFuel, if_pos hv]

/-- Unfolding of the unvisited branch (command_inspector.py:58-67, 77-86):
the key is added and the store scan runs on `key :: covered`. -/
theorem fanFuel_unvisited (ins : Inspector) (dir : Bool) (n : Nat) (file : String)
    (cov : List String) (dg : Option String) r
    (hv : fileKey file (digestOr ins dg file).1 ∉ cov)
    (h : fanFuel ins dir (n + 1) file cov dg = some r) :
    ∃ cs cov2 h2,
      fanCmds (fun fl c d => fanFuel ins dir n fl c d)
        (dirMatchFiles dir) (dirRecFiles dir) (digestOr ins dg file).1 dir
        (list_entries ins true) (fileKey file (digestOr ins dg file).1 :: cov) =
        some (cs, cov2, h2) ∧
      r = (FileDependency.mk (ins.work_path file) (digestOr ins dg file).1 dir cs,
        cov2, (digestOr ins dg file).2 + h2) := by
  simp only [fanFuel, if_neg hv] at h
  cases h1 : fanCmds (fun fl c d => fanFuel ins dir n fl c d)
      (dirMatchFiles dir) (dirRecFiles dir) (digestOr ins dg file).1 dir
      (list_entries ins true) (fileKey file (digestOr ins dg file).1 :: cov) with
  | none => simp only [h1] at h; exact Option.noConfusion h
  | some r1 =>
    obtain ⟨cs1, cov1, n1⟩ := r1
    simp only [h1] at h
    injection h with h
    exact ⟨cs1, cov1, n1, rfl, h.symm⟩

/-- The command children produced by the store scan are exactly the
matching entries, one child per entry, in scan order. -/
theorem fanCmds_map_command (go : String → List String → Option String →
    Option (FileDependency × List String × Nat))
    (matchFiles recFiles : CommandLog → List FileLog) (fdigest : String) (out : Bool) :
    ∀ (cmds : List CommandLog) (cov : List String) r,
    fanCmds go matchFiles recFiles fdigest out cmds cov = some r →
    r.1.map CommandDependency.command =
      cmds.filter (fun c => (matchFiles c).any (fun f => f.md5 == fdigest)) := by
  intro cmds
  induction cmds with
  | nil =>
    intro cov r h
    simp only [fanCmds] at h
    injection h with h
    subst h
    rfl
  | cons c rest ih =>
    intro cov r h
    simp only [fanCmds] at h
    by_cases hm : (matchFiles c).any (fun f => f.md5 == fdigest)
    · rw [if_pos hm] at h
      cases h1 : fanFiles go (recFiles c) cov with
      | none => simp only [h1] at h; exact Option.noConfusion h
      | some r1 =>
        obtain ⟨ds1, cov1, n1⟩ := r1
        simp only [h1] at h
        cases h2 : fanCmds go matchFiles recFiles fdigest out rest cov1 with
        | none => simp only [h2] at h; exact Option.noConfusion h
        | some r2 =>
          obtain ⟨cs2, cov2, n2⟩ := r2
          simp only [h2] at h
          injection h with h
          subst h
          simp only [List.map_cons, CommandDependency.command, List.filter_cons, hm,
            if_pos, ih _ _ h2]
    · rw [if_neg hm] at h
      have := ih _ _ h
      simp only [List.filter_cons]
      rw [if_neg (by simp [hm])]
      exact this

/-- Every result node carries the resolved anchor path, the resolved
digest and the direction flag, whichever branch was taken. -/
theorem fanFuel_fields (ins : Inspector) (dir : Bool) (n : Nat) (file : String)
    (cov : List String) (dg : Option String) r
    (h : fanFuel ins dir n file cov dg = some r) :
    r.1.file = ins.work_path file ∧ r.1.digest = (digestOr ins dg file).1 ∧
      r.1.out = dir := by
  cases n with
  | zero => exact absurd h (by simp [fanFuel])
  | succ n =>
    by_cases hv : fileKey file (digestOr ins dg file).1 ∈ cov
    · rw [fanFuel_visited ins dir n file cov dg hv] at h
      injection h with h
      subst h
      exact ⟨rfl, rfl, rfl⟩
    · obtain ⟨cs, cov2, h2, _, hr⟩ := fanFuel_unvisited ins dir n file cov dg r hv h
      subst hr
      exact ⟨rfl, rfl, rfl⟩

/-- When no entry of the scanned list matches, the scan contributes no
children, leaves the visited set unchanged and hashes nothing. -/
theorem fanCmds_nomatch (go : String → List String → Option String →
    Option (FileDependency × List String × Nat))
    (matchFiles recFiles : CommandLog → List FileLog) (fdigest : String) (out : Bool) :
    ∀ (cmds : List CommandLog) (cov : List String),
    (∀ c ∈ cmds, (matchFiles c).any (fun f => f.md5 == fdigest) = false) →
    fanCmds go matchFiles recFiles fdigest out cmds cov = some ([], cov, 0) := by
  intro cmds
  induction cmds with
  | nil => intro cov _; rfl
  | cons c rest ih =>
    intro cov hno
    simp only [fanCmds]
    rw [if_neg (by simp [hno c (List.mem_cons_self c rest)])]
    exact ih cov (fun x hx => hno x (List.mem_cons_of_mem _ hx))

theorem recKeys_mem (ins : Inspector) (dir : Bool) (c : CommandLog) (f : FileLog)
    (hc : c ∈ ins.log) (hf : f ∈ dirRecFiles dir c) :
    fileKey f.path (digestOr ins (some f.md5) f.path).1 ∈ recKeys ins dir := by
  simp only [recKeys, List.mem_map]
  exact ⟨f, List.mem_flatMap.mpr ⟨c, hc, hf⟩, rfl⟩

/-- The termination measure strictly drops from a call to any of the
recursive calls it spawns: the parent's key has been added to the visited
set, and the child's key is one of the store-derived keys. -/
theorem fanMeasure_child (ins : Inspector) (dir : Bool) (file : String)
    (covered : List String) (digest : Option String)
    (hv : fileKey file (digestOr ins digest file).1 ∉ covered)
    (f : FileLog)
    (hfk : fileKey f.path (digestOr ins (some f.md5) f.path).1 ∈ recKeys ins dir)
    (cov1 : List String)
    (hsub : (fileKey file (digestOr ins digest file).1 :: covered) ⊆ cov1) :
    fanMeasure ins dir f.path cov1 (some f.md5) < fanMeasure ins dir file covered digest := by
  classical
  set k := fileKey file (digestOr ins digest file).1 with hk
  set kf := fileKey f.path (digestOr ins (some f.md5) f.path).1 with hkf
  set K := (recKeys ins dir).toFinset with hK
  have hkfK : kf ∈ K := List.mem_toFinset.mpr hfk
  have hkcov : k ∉ covered.toFinset := fun hx => hv (List.mem_toFinset.mp hx)
  have h1 : fanMeasure ins dir f.path cov1 (some f.md5) = (K \ cov1.toFinset).card := by
    simp only [fanMeasure, ← hkf, ← hK, Finset.insert_eq_self.mpr hkfK]
  have h2 : fanMeasure ins dir file covered digest =
      (insert k (K \ covered.toFinset)).card := by
    simp only [fanMeasure, ← hk, ← hK, Finset.insert_sdiff_of_not_mem _ hkcov]
  rw [h1, h2]
  have hsubF : K \ cov1.toFinset ⊆ (K \ covered.toFinset).erase k := by
    intro x hx
    obtain ⟨hxK, hxc⟩ := Finset.mem_sdiff.mp hx
    have hxk : x ≠ k := fun he =>
      hxc (List.mem_toFinset.mpr (hsub (he ▸ List.mem_cons_self k covered)))
    have hxcov : x ∉ covered.toFinset := fun hxcov =>
      hxc (List.mem_toFinset.mpr (hsub (List.mem_cons_of_mem _ (List.mem_toFinset.mp hxcov))))
    exact Finset.mem_erase.mpr ⟨hxk, Finset.mem_sdiff.mpr ⟨hxK, hxcov⟩⟩
  have hlt : ((K \ covered.toFinset).erase k).card < (insert k (K \ covered.toFinset)).card := by
    have he : insert k ((K \ covered.toFinset).erase k) ⊆ insert k (K \ covered.toFinset) :=
      Finset.insert_subset_insert _ (Finset.erase_subset _ _)
    have hc : (insert k ((K \ covered.toFinset).erase k)).card =
        ((K \ covered.toFinset).erase k).card + 1 :=
      Finset.card_insert_of_not_mem (Finset.not_mem_erase _ _)
    have := Finset.card_le_card he
    omega
  exact lt_of_le_of_lt (Finset.card_le_card hsubF) hlt

theorem fanFiles_isSome (go : String → List String → Option String →
    Option (FileDependency × List String × Nat))
    (hmono : ∀ fl c dg r, go fl c dg = some r → c ⊆ r.2.1) (base : List String) :
    ∀ (fls : List FileLog),
    (∀ f ∈ fls, ∀ cov : List String, base ⊆ cov → (go f.path cov (some f.md5)).isSome) →
    ∀ cov : List String, base ⊆ cov → (fanFiles go fls cov).isSome := by
  intro fls
  induction fls with
  | nil => intro _ cov _; simp [fanFiles]
  | cons f rest ih =>
    intro hsome cov hbc
    have h1 := hsome f (List.mem_cons_self f rest) cov hbc
    obtain ⟨r1, hr1⟩ := Option.isSome_iff_exists.mp h1
    obtain ⟨d1, cov1, n1⟩ := r1
    have h2 := ih (fun x hx => hsome x (List.mem_cons_of_mem _ hx)) cov1
      (fun x hx => hmono _ _ _ _ hr1 (hbc hx))
    obtain ⟨r2, hr2⟩ := Option.isSome_iff_exists.mp h2
    obtain ⟨ds2, cov2, n2⟩ := r2
    simp only [fanFiles, hr1, hr2, Option.isSome_some]

theorem fanCmds_isSome (go : String → List String → Option String →
    Option (FileDependency × List String × Nat))
    (matchFiles recFiles : CommandLog → List FileLog) (fdigest : String) (out : Bool)
    (hmono : ∀ fl c dg r, go fl c dg = some r → c ⊆ r.2.1) (base : List String) :
    ∀ (cmds : List CommandLog),
    (∀ c ∈ cmds, ∀ f ∈ recFiles c, ∀ cov : List String, base ⊆ cov →
      (go f.path cov (some f.md5)).isSome) →
    ∀ cov : List String, base ⊆ cov → (fanCmds go matchFiles recFiles fdigest out cmds cov).isSome := by
  intro cmds
  induction cmds with
  | nil => intro _ cov _; simp [fanCmds]
  | cons c rest ih =>
    intro hsome cov hbc
    by_cases hm : (matchFiles c).any (fun f => f.md5 == fdigest)
    · have h1 := fanFiles_isSome go hmono base (recFiles c)
        (fun f hf => hsome c (List.mem_cons_self c rest) f hf) cov hbc
      obtain ⟨r1, hr1⟩ := Option.isSome_iff_exists.mp h1
      obtain ⟨ds1, cov1, n1⟩ := r1
      have hbc1 : base ⊆ cov1 :=
        fun x hx => fanFiles_subset go hmono _ _ _ hr1 (hbc hx)
      have h2 := ih (fun x hx => hsome x (List.mem_cons_of_mem _ hx)) cov1 hbc1
      obtain ⟨r2, hr2⟩ := Option.isSome_iff_exists.mp h2
      obtain ⟨cs2, cov2, n2⟩ := r2
      simp only [fanCmds, if_pos hm, hr1, hr2, Option.isSome_some]
    · simp only [fanCmds, if_neg hm]
      exact ih (fun x hx => hsome x (List.mem_cons_of_mem _ hx)) cov hbc

/-- Fuel sufficiency: any fuel strictly above the measure (the number of
not-yet-visited reachable keys) makes the traversal complete. -/
theorem fanFuel_isSome (ins : Inspector) (dir : Bool) :
    ∀ (n : Nat) (file : String) (covered : List String) (digest : Option String),
    fanMeasure ins dir file covered digest < n →
    (fanFuel ins dir n file covered digest).isSome := by
  intro n
  induction n with
  | zero => intro file covered digest h; exact absurd h (by omega)
  | succ n ih =>
    intro file covered digest hμ
    by_cases hv : fileKey file (digestOr ins digest file).1 ∈ covered
    · rw [fanFuel_visited ins dir n file covered digest hv]
      exact Option.isSome_some
    · simp only [fanFuel, if_neg hv]
      have hc : (fanCmds (fun fl c d => fanFuel ins dir n fl c d)
          (dirMatchFiles dir) (dirRecFiles dir) (digestOr ins digest file).1 dir
          (list_entries ins true)
          (fileKey file (digestOr ins digest file).1 :: covered)).isSome := by
        apply fanCmds_isSome _ _ _ _ _
          (fun fl c dg r hr => fanFuel_subset ins dir n fl c dg r hr)
          (fileKey file (digestOr ins digest file).1 :: covered)
        · intro c hcm f hf cov hbc
          apply ih
          have hck : c ∈ ins.log := by
            simpa [list_entries, List.mem_reverse] using hcm
          have hchild := fanMeasure_child ins dir file covered digest hv f
            (recKeys_mem ins dir c f hck hf) cov hbc
          omega
        · exact fun x hx => hx
      obtain ⟨r, hr⟩ := Option.isSome_iff_exists.mp hc
      obtain ⟨cs, cov2, h2⟩ := r
      simp only [hr, Option.isSome_some]

/-- A matching entry of the scanned list contributes a command child built
from `fanFiles` on its recursed-into records. -/
theorem fanCmds_elem (go : String → List String → Option String →
    Option (FileDependency × List String × Nat))
    (matchFiles recFiles : CommandLog → List FileLog) (fdigest : String) (out : Bool) :
    ∀ (cmds : List CommandLog) (cov : List String) r,
    fanCmds go matchFiles recFiles fdigest out cmds cov = some r →
    ∀ c ∈ cmds, (matchFiles c).any (fun f => f.md5 == fdigest) = true →
    ∃ ds cov0 cov1 n1, fanFiles go (recFiles c) cov0 = some (ds, cov1, n1) ∧
      CommandDependency.mk c out ds ∈ r.1 := by
  intro cmds
  induction cmds with
  | nil => intro cov r h c hc; exact absurd hc (List.not_mem_nil c)
  | cons c0 rest ih =>
    intro cov r h c hc hm
    simp only [fanCmds] at h
    by_cases hm0 : (matchFiles c0).any (fun f => f.md5 == fdigest)
    · rw [if_pos hm0] at h
      cases h1 : fanFiles go (recFiles c0) cov with
      | none => simp only [h1] at h; exact Option.noConfusion h
      | some r1 =>
        obtain ⟨ds1, cov1, n1⟩ := r1
        simp only [h1] at h
        cases h2 : fanCmds go matchFiles recFiles fdigest out rest cov1 with
        | none => simp only [h2] at h; exact Option.noConfusion h
        | some r2 =>
          obtain ⟨cs2, cov2, n2⟩ := r2
          simp only [h2] at h
          injection h with h
          subst h
          rcases List.mem_cons.mp hc with hceq | hcrest
          · subst hceq
            exact ⟨ds1, cov, cov1, n1, h1, List.mem_cons_self _ _⟩
          · obtain ⟨ds, cv0, cv1, nn1, hf, hmem⟩ := ih _ _ h2 c hcrest hm
            exact ⟨ds, cv0, cv1, nn1, hf, List.mem_cons_of_mem _ hmem⟩
    · rw [if_neg hm0] at h
      rcases List.mem_cons.mp hc with hceq | hcrest
      · subst hceq; exact absurd hm (by simp [hm0])
      · exact ih _ _ h c hcrest hm

/-- The file children produced by the inner loop are in one-to-one
correspondence with the records iterated over; the digest of each child is
determined by the record. -/
theorem fanFiles_map (go : String → List String → Option String →
    Option (FileDependency × List String × Nat)) (dig : FileLog → String)
    (hfd : ∀ (f : FileLog) (c : List String) r,
      go f.path c (some f.md5) = some r → r.1.digest = dig f) :
    ∀ (fls : List FileLog) (cov : List String) r,
    fanFiles go fls cov = some r →
    r.1.map FileDependency.digest = fls.map dig := by
  intro fls
  induction fls with
  | nil =>
    intro cov r h
    simp only [fanFiles] at h
    injection h with h
    subst h
    rfl
  | cons f rest ih =>
    intro cov r h
    simp only [fanFiles] at h
    cases h1 : go f.path cov (some f.md5) with
    | none => simp only [h1] at h; exact Option.noConfusion h
    | some r1 =>
      obtain ⟨d1, cov1, n1⟩ := r1
      simp only [h1] at h
      cases h2 : fanFiles go rest cov1 with
      | none => simp only [h2] at h; exact Option.noConfusion h
      | some r2 =>
        obtain ⟨ds2, cov2, n2⟩ := r2
        simp only [h2] at h
        injection h with h
        subst h
        simp only [List.map_cons]
        exact congrArg₂ _ (hfd f cov (d1, cov1, n1) h1) (ih _ _ h2)

theorem expOk_nil (cov cov2 : List String) : expOk cov cov2 [] :=
  ⟨fun pr hpr => absurd hpr (List.not_mem_nil pr), List.nodup_nil⟩

theorem expOk_append (cov cov1 cov2 : List String) (a b : List (String × String))
    (hsub : cov ⊆ cov1) (hsub2 : cov1 ⊆ cov2)
    (ha : expOk cov cov1 a) (hb : expOk cov1 cov2 b) : expOk cov cov2 (a ++ b) := by
  obtain ⟨ham, han⟩ := ha
  obtain ⟨hbm, hbn⟩ := hb
  constructor
  · intro pr hpr
    rcases List.mem_append.mp hpr with hpa | hpb
    · exact ⟨hsub2 (ham pr hpa).1, (ham pr hpa).2⟩
    · exact ⟨(hbm pr hpb).1, fun hx => (hbm pr hpb).2 (hsub hx)⟩
  · rw [List.map_append]
    refine List.Nodup.append han hbn ?_
    intro x hxa hxb
    obtain ⟨pa, hpa, hpaeq⟩ := List.mem_map.mp hxa
    obtain ⟨pb, hpb, hpbeq⟩ := List.mem_map.mp hxb
    exact (hbm pb hpb).2 (hpbeq ▸ hpaeq ▸ (ham pa hpa).1)

theorem fanFiles_exp (go : String → List String → Option String →
    Option (FileDependency × List String × Nat))
    (hmono : ∀ fl c dg r, go fl c dg = some r → c ⊆ r.2.1)
    (hgoE : ∀ fl c dg r, go fl c dg = some r → expOk c r.2.1 (fdExpanded r.1)) :
    ∀ (fls : List FileLog) (cov : List String) r,
    fanFiles go fls cov = some r → expOk cov r.2.1 (fdsExpanded r.1) := by
  intro fls
  induction fls with
  | nil =>
    intro cov r h
    simp only [fanFiles] at h
    injection h with h
    subst h
    exact expOk_nil _ _
  | cons f rest ih =>
    intro cov r h
    simp only [fanFiles] at h
    cases h1 : go f.path cov (some f.md5) with
    | none => simp only [h1] at h; exact Option.noConfusion h
    | some r1 =>
      obtain ⟨d1, cov1, n1⟩ := r1
      simp only [h1] at h
      cases h2 : fanFiles go rest cov1 with
      | none => simp only [h2] at h; exact Option.noConfusion h
      | some r2 =>
        obtain ⟨ds2, cov2, n2⟩ := r2
        simp only [h2] at h
        injection h with h
        subst h
        simp only [fdsExpanded]
        exact expOk_append cov cov1 cov2 _ _
          (fun x hx => hmono _ _ _ _ h1 hx)
          (fun x hx => fanFiles_subset go hmono _ _ _ h2 hx)
          (hgoE _ _ _ _ h1) (ih _ _ h2)

theorem fanCmds_exp (go : String → List String → Option String →
    Option (FileDependency × List String × Nat))
    (matchFiles recFiles : CommandLog → List FileLog) (fdigest : String) (out : Bool)
    (hmono : ∀ fl c dg r, go fl c dg = some r → c ⊆ r.2.1)
    (hgoE : ∀ fl c dg r, go fl c dg = some r → expOk c r.2.1 (fdExpanded r.1)) :
    ∀ (cmds : List CommandLog) (cov : List String) r,
    fanCmds go matchFiles recFiles fdigest out cmds cov = some r →
    expOk cov r.2.1 (cdsExpanded r.1) := by
  intro cmds
  induction cmds with
  | nil =>
    intro cov r h
    simp only [fanCmds] at h
    injection h with h
    subst h
    exact expOk_nil _ _
  | cons c rest ih =>
    intro cov r h
    simp only [fanCmds] at h
    by_cases hm : (matchFiles c).any (fun f => f.md5 == fdigest)
    · rw [if_pos hm] at h
      cases h1 : fanFiles go (recFiles c) cov with
      | none => simp only [h1] at h; exact Option.noConfusion h
      | some r1 =>
        obtain ⟨ds1, cov1, n1⟩ := r1
        simp only [h1] at h
        cases h2 : fanCmds go matchFiles recFiles fdigest out rest cov1 with
        | none => simp only [h2] at h; exact Option.noConfusion h
        | some r2 =>
          obtain ⟨cs2, cov2, n2⟩ := r2
          simp only [h2] at h
          injection h with h
          subst h
          simp only [cdsExpanded, cdExpanded]
          exact expOk_append cov cov1 cov2 _ _
            (fun x hx => fanFiles_subset go hmono _ _ _ h1 hx)
            (fun x hx => fanCmds_subset go matchFiles recFiles fdigest out hmono _ _ _ h2 hx)
            (fanFiles_exp go hmono hgoE _ _ _ h1) (ih _ _ h2)
    · rw [if_neg hm] at h
      exact ih _ _ h

/-- The shared visited set soundly tracks expansion: every expanded
(path, digest) pair of the returned tree has its key recorded in the final
visited set, none was visited before the call, and no key is expanded
twice in the whole tree (requires the inspector's path resolution to be
the identity, so that tree nodes carry the visitation paths). -/
theorem fanFuel_exp (ins : Inspector) (dir : Bool)
    (hwp : ∀ p, ins.work_path p = p) :
    ∀ (n : Nat) (file : String) (cov : List String) (dg : Option String) r,
    fanFuel ins dir n file cov dg = some r → expOk cov r.2.1 (fdExpanded r.1) := by
  intro n
  induction n with
  | zero => intro file cov dg r h; exact absurd h (by simp [fanFuel])
  | succ n ih =>
    intro file cov dg r h
    by_cases hv : fileKey file (digestOr ins dg file).1 ∈ cov
    · rw [fanFuel_visited ins dir n file cov dg hv] at h
      injection h with h
      subst h
      simp only [fdExpanded, List.isEmpty_nil, if_pos, cdsExpanded, List.append_nil]
      exact expOk_nil _ _
    · obtain ⟨cs, cov2, h2, hcm, hr⟩ := fanFuel_unvisited ins dir n file cov dg r hv h
      subst hr
      have hexp := fanCmds_exp _ _ _ _ _
        (fun fl c d rr hh => fanFuel_subset ins dir n fl c d rr hh)
        (fun fl c d rr hh => ih fl c d rr hh) _ _ _ hcm
      have hsub2 : (fileKey file (digestOr ins dg file).1 :: cov) ⊆ cov2 :=
        fanCmds_subset _ _ _ _ _
          (fun fl c d rr hh => fanFuel_subset ins dir n fl c d rr hh) _ _ _ hcm
      cases hcs : cs with
      | nil =>
        subst hcs
        simp only [fdExpanded, List.isEmpty_nil, if_pos, cdsExpanded, List.append_nil]
        exact expOk_nil _ _
      | cons c0 cs0 =>
        subst hcs
        simp only [fdExpanded, List.isEmpty_cons, if_neg Bool.false_ne_true,
          List.singleton_append]
        obtain ⟨hexpm, hexpn⟩ := hexp
        constructor
        · intro pr hpr
          rcases List.mem_cons.mp hpr with hpr0 | hprc
          · subst hpr0
            refine ⟨?_, ?_⟩
            · simp only [pairKey, hwp, fileKey]
              exact hsub2 (List.mem_cons_self _ _)
            · simp only [pairKey, hwp, fileKey]
              exact hv
          · obtain ⟨hin, hnin⟩ := hexpm pr hprc
            exact ⟨hin, fun hx => hnin (List.mem_cons_of_mem _ hx)⟩
        · simp only [List.map_cons]
          refine List.Nodup.cons ?_ hexpn
          intro hx
          obtain ⟨pa, hpa, hpaeq⟩ := List.mem_map.mp hx
          have := (hexpm pa hpa).2
          apply this
          rw [hpaeq]
          simp only [pairKey, hwp, fileKey]
          exact List.mem_cons_self _ _

theorem fanFiles_hash (go : String → List String → Option String →
    Option (FileDependency × List String × Nat)) :
    ∀ (fls : List FileLog),
    (∀ f ∈ fls, ∀ (cov : List String) r, go f.path cov (some f.md5) = some r → r.2.2 = 0) →
    ∀ (cov : List String) r, fanFiles go fls cov = some r → r.2.2 = 0 := by
  intro fls
  induction fls with
  | nil =>
    intro _ cov r h
    simp only [fanFiles] at h
    injection h with h
    subst h
    rfl
  | cons f rest ih =>
    intro hz cov r h
    simp only [fanFiles] at h
    cases h1 : go f.path cov (some f.md5) with
    | none => simp only [h1] at h; exact Option.noConfusion h
    | some r1 =>
      obtain ⟨d1, cov1, n1⟩ := r1
      simp only [h1] at h
      cases h2 : fanFiles go rest cov1 with
      | none => simp only [h2] at h; exact Option.noConfusion h
      | some r2 =>
        obtain ⟨ds2, cov2, n2⟩ := r2
        simp only [h2] at h
        injection h with h
        subst h
        have e1 : n1 = 0 := hz f (List.mem_cons_self f rest) cov (d1, cov1, n1) h1
        have e2 : n2 = 0 := ih (fun x hx => hz x (List.mem_cons_of_mem _ hx)) _ _ h2
        simp [e1, e2]

theorem fanCmds_hash (go : String → List String → Option String →
    Option (FileDependency × List String × Nat))
    (matchFiles recFiles : CommandLog → List FileLog) (fdigest : String) (out : Bool) :
    ∀ (cmds : List CommandLog),
    (∀ c ∈ cmds, ∀ f ∈ recFiles c, ∀ (cov : List String) r,
      go f.path cov (some f.md5) = some r → r.2.2 = 0) →
    ∀ (cov : List String) r, fanCmds go matchFiles recFiles fdigest out cmds cov = some r →
    r.2.2 = 0 := by
  intro cmds
  induction cmds with
  | nil =>
    intro _ cov r h
    simp only [fanCmds] at h
    injection h with h
    subst h
    rfl
  | cons c rest ih =>
    intro hz cov r h
    simp only [fanCmds] at h
    by_cases hm : (matchFiles c).any (fun f => f.md5 == fdigest)
    · rw [if_pos hm] at h
      cases h1 : fanFiles go (recFiles c) cov with
      | none => simp only [h1] at h; exact Option.noConfusion h
      | some r1 =>
        obtain ⟨ds1, cov1, n1⟩ := r1
        simp only [h1] at h
        cases h2 : fanCmds go matchFiles recFiles fdigest out rest cov1 with
        | none => simp only [h2] at h; exact Option.noConfusion h
        | some r2 =>
          obtain ⟨cs2, cov2, n2⟩ := r2
          simp only [h2] at h
          injection h with h
          subst h
          have e1 : n1 = 0 := fanFiles_hash go (recFiles c)
            (fun f hf => hz c (List.mem_cons_self c rest) f hf) _ _ h1
          have e2 : n2 = 0 := ih (fun x hx => hz x (List.mem_cons_of_mem _ hx)) _ _ h2
          simp [e1, e2]
    · rw [if_neg hm] at h
      exact ih (fun x hx => hz x (List.mem_cons_of_mem _ hx)) _ _ h

/-- When every record drawn from the store carries a non-empty digest, a
traversal started with a supplied non-empty digest never invokes
`hash_of`. -/
theorem fanFuel_hash (ins : Inspector) (dir : Bool)
    (hclean : ∀ c ∈ ins.log, ∀ f ∈ dirRecFiles dir c, f.md5 ≠ "") :
    ∀ (n : Nat) (file : String) (cov : List String) (d : String), d ≠ "" →
    ∀ r, fanFuel ins dir n file cov (some d) = some r → r.2.2 = 0 := by
  intro n
  induction n with
  | zero => intro file cov d _ r h; exact absurd h (by simp [fanFuel])
  | succ n ih =>
    intro file cov d hd r h
    have hfd : digestOr ins (some d) file = (d, 0) := by
      simp [digestOr, hd]
    by_cases hv : fileKey file (digestOr ins (some d) file).1 ∈ cov
    · rw [fanFuel_visited ins dir n file cov (some d) hv] at h
      injection h with h
      subst h
      simp [hfd]
    · obtain ⟨cs, cov2, h2, hcm, hr⟩ := fanFuel_unvisited ins dir n file cov (some d) r hv h
      subst hr
      have e2 : h2 = 0 := by
        have := fanCmds_hash _ (dirMatchFiles dir) (dirRecFiles dir)
          (digestOr ins (some d) file).1 dir (list_entries ins true)
          (fun c hcm0 f hf cov0 r0 hr0 => by
            have hcl : c ∈ ins.log := by
              simpa [list_entries, List.mem_reverse] using hcm0
            exact ih f.path cov0 f.md5 (hclean c hcl f hf) r0 hr0)
          _ _ hcm
        simpa using this
      simp [hfd, e2]

/-! ### Claim theorems -/

/-- C2: for every finite store and every anchor file (with or without a
supplied digest, from any starting visited set), `fanin` and `fanout`
terminate: a finite fuel (one more than the number of unvisited reachable
(path, digest) keys) suffices for the recursion to complete, even when the
store's entries encode a cycle of digests. -/
theorem c2_fanin_fanout_terminate (ins : Inspector) (file : String)
    (covered : List String) (digest : Option String) :
    ∃ n m : Nat, (faninFuel ins n file covered digest).isSome ∧
      (fanoutFuel ins m file covered digest).isSome :=
  ⟨fanMeasure ins false file covered digest + 1,
    fanMeasure ins true file covered digest + 1,
    fanFuel_isSome ins false _ file covered digest (by omega),
    fanFuel_isSome ins true _ file covered digest (by omega)⟩

/-- An entry appears among the anchor's command children exactly when its
matched file set contains a record whose digest equals the anchor digest
(for a fresh traversal with a supplied non-empty digest). -/
theorem fanFuel_children_iff (ins : Inspector) (dir : Bool) (file D : String)
    (hD : D ≠ "") (n : Nat) (dep : FileDependency) (cov : List String) (cnt : Nat)
    (h : fanFuel ins dir n file [] (some D) = some (dep, cov, cnt)) (c : CommandLog) :
    (∃ ch ∈ dep.next, ch.command = c) ↔
      (c ∈ ins.log ∧ ∃ f ∈ dirMatchFiles dir c, f.md5 = D) := by
  cases n with
  | zero => exact absurd h (by simp [fanFuel])
  | succ n =>
    have hv : fileKey file (digestOr ins (some D) file).1 ∉ ([] : List String) :=
      List.not_mem_nil _
    obtain ⟨cs, cov2, h2, hcm, hr⟩ := fanFuel_unvisited ins dir n file [] (some D) _ hv h
    have hdep : dep =
        FileDependency.mk (ins.work_path file) (digestOr ins (some D) file).1 dir cs :=
      congrArg Prod.fst hr
    subst hdep
    have hmap := fanCmds_map_command _ _ _ _ _ _ _ _ hcm
    have hfd : (digestOr ins (some D) file).1 = D := by simp [digestOr, hD]
    rw [hfd] at hmap
    have h1 : (∃ ch ∈ (FileDependency.mk (ins.work_path file)
        (digestOr ins (some D) file).1 dir cs).next, ch.command = c) ↔
        c ∈ cs.map CommandDependency.command := by
      simp only [FileDependency.next, List.mem_map]
    rw [h1, hmap, List.mem_filter]
    simp [list_entries, List.mem_reverse, List.any_eq_true]

/-- C1: matching is digest-exact and path-independent: for every store and
every fresh query anchored at (path, digest) with a non-empty digest, an
entry is attached as a command child of the anchor if and only if its
output set (fan-in) resp. input set (fan-out) contains a record whose
digest equals the anchor digest — regardless of the paths the records
carry. -/
theorem c1_digest_exact_matching (ins : Inspector) (fileI D : String) (hD : D ≠ "")
    (nI : Nat) (depI : FileDependency) (covI : List String) (cntI : Nat)
    (hI : faninFuel ins nI fileI [] (some D) = some (depI, covI, cntI))
    (fileO E : String) (hE : E ≠ "")
    (nO : Nat) (depO : FileDependency) (covO : List String) (cntO : Nat)
    (hO : fanoutFuel ins nO fileO [] (some E) = some (depO, covO, cntO))
    (c : CommandLog) :
    ((∃ ch ∈ depI.next, ch.command = c) ↔
      (c ∈ ins.log ∧ ∃ f ∈ c.out_files, f.md5 = D)) ∧
    ((∃ ch ∈ depO.next, ch.command = c) ↔
      (c ∈ ins.log ∧ ∃ f ∈ c.in_files, f.md5 = E)) := by
  constructor
  · have := fanFuel_children_iff ins false fileI D hD nI depI covI cntI hI c
    simpa [dirMatchFiles] using this
  · have := fanFuel_children_iff ins true fileO E hE nO depO covO cntO hO c
    simpa [dirMatchFiles] using this

/-- C1 witness: in a store where `c1` wrote digest `D` at path `p1` and
`c2` wrote the same digest `D` at path `p2`, the fan-in anchored at
(`p2`, `D`) attaches `c1` even though `c1` only produced `D` at the other
path; the fan-out anchored at (`i1`, `A`) attaches `c1`. -/
theorem c1_digest_exact_matching_witness :
    ((∃ ch ∈ (FileDependency.mk "p2" "D" false
        [CommandDependency.mk entry2 false [FileDependency.mk "i2" "B" false []],
         CommandDependency.mk entry1 false [FileDependency.mk "i1" "A" false []]]).next,
      ch.command = entry1) ↔
      (entry1 ∈ insW.log ∧ ∃ f ∈ entry1.out_files, f.md5 = "D")) ∧
    ((∃ ch ∈ (FileDependency.mk "i1" "A" true
        [CommandDependency.mk entry1 true [FileDependency.mk "p1" "D" true []]]).next,
      ch.command = entry1) ↔
      (entry1 ∈ insW.log ∧ ∃ f ∈ entry1.in_files, f.md5 = "A")) :=
  c1_digest_exact_matching insW "p2" "D" (by decide) 2
    (FileDependency.mk "p2" "D" false
      [CommandDependency.mk entry2 false [FileDependency.mk "i2" "B" false []],
       CommandDependency.mk entry1 false [FileDependency.mk "i1" "A" false []]])
    ["i1:A", "i2:B", "p2:D"] 0 rfl
    "i1" "A" (by decide) 2
    (FileDependency.mk "i1" "A" true
      [CommandDependency.mk entry1 true [FileDependency.mk "p1" "D" true []]])
    ["p1:D", "i1:A"] 0 rfl entry1

/-- C5: a fan-in call on an unvisited anchor scans the store in
reverse-insertion order (most recent entry first); every matching entry —
not only the first — contributes exactly one command child, and the
anchor's children appear in exactly that reverse-scan order. -/
theorem c5_fanin_reverse_scan_order (ins : Inspector) (n : Nat) (file : String)
    (covered : List String) (digest : Option String)
    (hnv : fileKey file (digestOr ins digest file).1 ∉ covered)
    (dep : FileDependency) (cov2 : List String) (cnt : Nat)
    (h : faninFuel ins (n + 1) file covered digest = some (dep, cov2, cnt)) :
    dep.next.map CommandDependency.command =
      (list_entries ins true).filter
        (fun c => c.out_files.any (fun f => f.md5 == (digestOr ins digest file).1)) := by
  obtain ⟨cs, cov2', h2', hcm, hr⟩ :=
    fanFuel_unvisited ins false n file covered digest _ hnv h
  have hdep : dep =
      FileDependency.mk (ins.work_path file) (digestOr ins digest file).1 false cs :=
    congrArg Prod.fst hr
  subst hdep
  have hmap := fanCmds_map_command _ _ _ _ _ _ _ _ hcm
  simpa [FileDependency.next, dirMatchFiles] using hmap

/-- C5 witness: fan-in at (`p2`, `D`) over the two-entry store attaches
both matching entries, most recent first. -/
theorem c5_fanin_reverse_scan_order_witness :
    (FileDependency.mk "p2" "D" false
      [CommandDependency.mk entry2 false [FileDependency.mk "i2" "B" false []],
       CommandDependency.mk entry1 false [FileDependency.mk "i1" "A" false []]]).next.map
      CommandDependency.command =
      (list_entries insW true).filter
        (fun c => c.out_files.any (fun f => f.md5 == (digestOr insW (some "D") "p2").1)) :=
  c5_fanin_reverse_scan_order insW 1 "p2" [] (some "D") (by decide)
    (FileDependency.mk "p2" "D" false
      [CommandDependency.mk entry2 false [FileDependency.mk "i2" "B" false []],
       CommandDependency.mk entry1 false [FileDependency.mk "i1" "A" false []]])
    ["i1:A", "i2:B", "p2:D"] 0 rfl

/-- C4: every `fanin`/`fanout` call computes the visitation key from the
anchor's path and digest; when the key is already visited the call returns
the anchor node immediately, with an empty child list, the visited set
unchanged and no store scan (the result does not depend on the store
`lg₁`, which is universally quantified and absent from the right-hand
side); when the key is not visited, it is added to the visited set before
the scan (so the key is in the final visited set of a successful call,
for both directions). -/
theorem c4_cycle_cut (lg₁ : List CommandLog) (wp : String → String)
    (fsf : String → Option (List Nat)) (md : List Nat → String)
    (n₁ : Nat) (file₁ : String) (covered₁ : List String) (digest₁ : Option String)
    (hvis : fileKey file₁ (digestOr ⟨lg₁, wp, fsf, md⟩ digest₁ file₁).1 ∈ covered₁)
    (ins : Inspector) (n₂ : Nat) (file₂ : String) (covered₂ : List String)
    (digest₂ : Option String)
    (hnin : fileKey file₂ (digestOr ins digest₂ file₂).1 ∉ covered₂)
    (depI : FileDependency) (covI : List String) (cntI : Nat)
    (hrI : faninFuel ins (n₂ + 1) file₂ covered₂ digest₂ = some (depI, covI, cntI))
    (depO : FileDependency) (covO : List String) (cntO : Nat)
    (hrO : fanoutFuel ins (n₂ + 1) file₂ covered₂ digest₂ = some (depO, covO, cntO)) :
    (faninFuel ⟨lg₁, wp, fsf, md⟩ (n₁ + 1) file₁ covered₁ digest₁ =
      some (FileDependency.mk (wp file₁) (digestOr ⟨lg₁, wp, fsf, md⟩ digest₁ file₁).1
        false [], covered₁, (digestOr ⟨lg₁, wp, fsf, md⟩ digest₁ file₁).2)) ∧
    (fanoutFuel ⟨lg₁, wp, fsf, md⟩ (n₁ + 1) file₁ covered₁ digest₁ =
      some (FileDependency.mk (wp file₁) (digestOr ⟨lg₁, wp, fsf, md⟩ digest₁ file₁).1
        true [], covered₁, (digestOr ⟨lg₁, wp, fsf, md⟩ digest₁ file₁).2)) ∧
    fileKey file₂ (digestOr ins digest₂ file₂).1 ∈ covI ∧
    fileKey file₂ (digestOr ins digest₂ file₂).1 ∈ covO := by
  refine ⟨fanFuel_visited _ false n₁ file₁ covered₁ digest₁ hvis,
    fanFuel_visited _ true n₁ file₁ covered₁ digest₁ hvis, ?_, ?_⟩
  · obtain ⟨cs, cov2, h2, hcm, hr⟩ :=
      fanFuel_unvisited ins false n₂ file₂ covered₂ digest₂ _ hnin hrI
    have hcov : covI = cov2 := congrArg (fun r => r.2.1) hr
    subst hcov
    exact fanCmds_subset _ _ _ _ _
      (fun fl c d rr hh => fanFuel_subset ins false n₂ fl c d rr hh) _ _ _ hcm
      (List.mem_cons_self _ _)
  · obtain ⟨cs, cov2, h2, hcm, hr⟩ :=
      fanFuel_unvisited ins true n₂ file₂ covered₂ digest₂ _ hnin hrO
    have hcov : covO = cov2 := congrArg (fun r => r.2.1) hr
    subst hcov
    exact fanCmds_subset _ _ _ _ _
      (fun fl c d rr hh => fanFuel_subset ins true n₂ fl c d rr hh) _ _ _ hcm
      (List.mem_cons_self _ _)

/-- C4 witness: an anchor whose key `x:D` is already visited returns
immediately as a childless leaf (with fuel 1, over the two-entry store);
an unvisited anchor's key `p2:D` ends up recorded in the visited set of
both directions. -/
theorem c4_cycle_cut_witness :
    (faninFuel insW 1 "x" ["x:D"] (some "D") =
      some (FileDependency.mk "x" "D" false [], ["x:D"], 0)) ∧
    (fanoutFuel insW 1 "x" ["x:D"] (some "D") =
      some (FileDependency.mk "x" "D" true [], ["x:D"], 0)) ∧
    ("p2:D" ∈ ["i1:A", "i2:B", "p2:D"]) ∧ ("p2:D" ∈ ["p2:D"]) :=
  c4_cycle_cut [entry1, entry2] wpId fsEmpty md5Triv 0 "x" ["x:D"] (some "D") (by decide)
    insW 1 "p2" [] (some "D") (by decide)
    (FileDependency.mk "p2" "D" false
      [CommandDependency.mk entry2 false [FileDependency.mk "i2" "B" false []],
       CommandDependency.mk entry1 false [FileDependency.mk "i1" "A" false []]])
    ["i1:A", "i2:B", "p2:D"] 0 rfl
    (FileDependency.mk "p2" "D" true []) ["p2:D"] 0 rfl

/-- C3: direction symmetry: if entry `C` of the store has an input record
with (non-empty) digest `Da` and an output record with (non-empty) digest
`Db`, then a completed fresh fan-out anchored at `Da` contains `C` as a
command child with a file node of digest `Db` beneath it, and a completed
fresh fan-in anchored at `Db` contains `C` as a command child with a file
node of digest `Da` beneath it. -/
theorem c3_direction_symmetry (ins : Inspector) (C : CommandLog) (hC : C ∈ ins.log)
    (fa fb : FileLog) (hfa : fa ∈ C.in_files) (hfb : fb ∈ C.out_files)
    (Da Db : String) (hfaD : fa.md5 = Da) (hfbD : fb.md5 = Db)
    (hDa : Da ≠ "") (hDb : Db ≠ "")
    (fileA : String) (nA : Nat) (depA : FileDependency) (covA : List String) (cntA : Nat)
    (hA : fanoutFuel ins nA fileA [] (some Da) = some (depA, covA, cntA))
    (fileB : String) (nB : Nat) (depB : FileDependency) (covB : List String) (cntB : Nat)
    (hB : faninFuel ins nB fileB [] (some Db) = some (depB, covB, cntB)) :
    (∃ ch ∈ depA.next, ch.command = C ∧ ∃ fn ∈ ch.next, fn.digest = Db) ∧
    (∃ ch ∈ depB.next, ch.command = C ∧ ∃ fn ∈ ch.next, fn.digest = Da) := by
  have main : ∀ (dir : Bool) (fx fy : FileLog), fx ∈ dirMatchFiles dir C →
      fy ∈ dirRecFiles dir C → ∀ (Dx Dy : String), fx.md5 = Dx → fy.md5 = Dy →
      Dx ≠ "" → Dy ≠ "" →
      ∀ (fileX : String) (nX : Nat) (depX : FileDependency) (covX : List String)
        (cntX : Nat),
      fanFuel ins dir nX fileX [] (some Dx) = some (depX, covX, cntX) →
      ∃ ch ∈ depX.next, ch.command = C ∧ ∃ fn ∈ ch.next, fn.digest = Dy := by
    intro dir fx fy hfx hfy Dx Dy hfxD hfyD hDx hDy fileX nX depX covX cntX hX
    cases nX with
    | zero => exact absurd hX (by simp [fanFuel])
    | succ nX =>
      have hv : fileKey fileX (digestOr ins (some Dx) fileX).1 ∉ ([] : List String) :=
        List.not_mem_nil _
      obtain ⟨cs, cov2, h2, hcm, hr⟩ :=
        fanFuel_unvisited ins dir nX fileX [] (some Dx) _ hv hX
      have hdep : depX =
          FileDependency.mk (ins.work_path fileX) (digestOr ins (some Dx) fileX).1 dir cs :=
        congrArg Prod.fst hr
      subst hdep
      have hfd : (digestOr ins (some Dx) fileX).1 = Dx := by simp [digestOr, hDx]
      have hmatch : (dirMatchFiles dir C).any
          (fun f => f.md5 == (digestOr ins (some Dx) fileX).1) = true := by
        rw [hfd]
        exact List.any_eq_true.mpr ⟨fx, hfx, by simp [hfxD]⟩
      have hCmem : C ∈ list_entries ins true := by
        simpa [list_entries, List.mem_reverse] using hC
      obtain ⟨ds, cov0, cov1, n1, hff, hmem⟩ :=
        fanCmds_elem _ _ _ _ _ _ _ _ hcm C hCmem hmatch
      have hmapd := fanFiles_map _ (fun f => (digestOr ins (some f.md5) f.path).1)
        (fun f c r hrr => (fanFuel_fields ins dir nX f.path c (some f.md5) r hrr).2.1)
        _ _ _ hff
      refine ⟨CommandDependency.mk C dir ds, hmem, rfl, ?_⟩
      have hdig : (digestOr ins (some fy.md5) fy.path).1 = Dy := by
        simp [digestOr, hfyD, hDy]
      have hmem2 : Dy ∈ (ds, cov1, n1).1.map FileDependency.digest := by
        rw [hmapd]
        exact List.mem_map.mpr ⟨fy, hfy, hdig⟩
      obtain ⟨fn, hfn, hfneq⟩ := List.mem_map.mp hmem2
      exact ⟨fn, by simpa [CommandDependency.next] using hfn, hfneq⟩
  constructor
  · exact main true fa fb (by simpa [dirMatchFiles] using hfa)
      (by simpa [dirRecFiles] using hfb) Da Db hfaD hfbD hDa hDb fileA nA depA covA cntA hA
  · exact main false fb fa (by simpa [dirMatchFiles] using hfb)
      (by simpa [dirRecFiles] using hfa) Db Da hfbD hfaD hDb hDa fileB nB depB covB cntB hB

/-- C3 witness: the one-entry store where `c3` read (`a`, `Da`) and wrote
(`b`, `Db`): fan-out at `Da` reaches `Db` through `c3`, and fan-in at `Db`
reaches `Da` through `c3`. -/
theorem c3_direction_symmetry_witness :
    (∃ ch ∈ (FileDependency.mk "a" "Da" true
        [CommandDependency.mk entry3 true [FileDependency.mk "b" "Db" true []]]).next,
      ch.command = entry3 ∧ ∃ fn ∈ ch.next, fn.digest = "Db") ∧
    (∃ ch ∈ (FileDependency.mk "b" "Db" false
        [CommandDependency.mk entry3 false [FileDependency.mk "a" "Da" false []]]).next,
      ch.command = entry3 ∧ ∃ fn ∈ ch.next, fn.digest = "Da") :=
  c3_direction_symmetry insSym entry3 (by decide)
    ⟨"a", "Da"⟩ ⟨"b", "Db"⟩ (by decide) (by decide) "Da" "Db" rfl rfl
    (by decide) (by decide)
    "a" 2 (FileDependency.mk "a" "Da" true
      [CommandDependency.mk entry3 true [FileDependency.mk "b" "Db" true []]])
    ["b:Db", "a:Da"] 0 rfl
    "b" 2 (FileDependency.mk "b" "Db" false
      [CommandDependency.mk entry3 false [FileDependency.mk "a" "Da" false []]])
    ["a:Da", "b:Db"] 0 rfl

/-- When no entry of the store matches the anchor digest, an unvisited
anchor comes back as a childless leaf with only its own key added. -/
theorem fanFuel_leaf_of_nomatch (ins : Inspector) (dir : Bool) (n : Nat)
    (file : String) (covered : List String) (digest : Option String)
    (hnv : fileKey file (digestOr ins digest file).1 ∉ covered)
    (hnom : ∀ c ∈ ins.log,
      (dirMatchFiles dir c).any (fun f => f.md5 == (digestOr ins digest file).1) = false) :
    fanFuel ins dir (n + 1) file covered digest =
      some (FileDependency.mk (ins.work_path file) (digestOr ins digest file).1 dir [],
        fileKey file (digestOr ins digest file).1 :: covered,
        (digestOr ins digest file).2) := by
  simp only [fanFuel]
  rw [if_neg hnv]
  rw [fanCmds_nomatch _ _ _ _ _ _ _
    (fun c hc => hnom c (by simpa [list_entries, List.mem_reverse] using hc))]
  simp

/-- Over a store all of whose recursed-into records carry non-empty
digests, a traversal with an absent digest hashes the anchor exactly
once. -/
theorem fanFuel_hash_none (ins : Inspector) (dir : Bool)
    (hclean : ∀ c ∈ ins.log, ∀ f ∈ dirRecFiles dir c, f.md5 ≠ "")
    (n : Nat) (file : String) (cov : List String) r
    (h : fanFuel ins dir n file cov none = some r) : r.2.2 = 1 := by
  cases n with
  | zero => exact absurd h (by simp [fanFuel])
  | succ n =>
    have hfd : (digestOr ins none file).2 = 1 := by simp [digestOr]
    by_cases hv : fileKey file (digestOr ins none file).1 ∈ cov
    · rw [fanFuel_visited ins dir n file cov none hv] at h
      injection h with h
      subst h
      exact hfd
    · obtain ⟨cs, cov2, h2, hcm, hr⟩ := fanFuel_unvisited ins dir n file cov none r hv h
      subst hr
      have e2 : h2 = 0 := by
        have := fanCmds_hash _ (dirMatchFiles dir) (dirRecFiles dir)
          (digestOr ins none file).1 dir (list_entries ins true)
          (fun c hcm0 f hf cov0 r0 hr0 => by
            have hcl : c ∈ ins.log := by
              simpa [list_entries, List.mem_reverse] using hcm0
            exact fanFuel_hash ins dir hclean n f.path cov0 f.md5
              (hclean c hcl f hf) r0 hr0)
          _ _ hcm
        simpa using this
      simp [hfd, e2]

/-- C6 counterexample: the claim asserts that an empty-digest FileRecord
"can never match any entry's file set in any store", so a fan-in anchored
at a missing file always yields a childless leaf.  Over the store
`insEmptyDigest`, whose single entry's output set contains a record with
an empty digest, the fan-in anchored at the missing file `a` (hashed to
the empty digest) attaches that entry as a command child: the anchor has
one child, not zero. -/
theorem c6_counterexample :
    (faninFuel insEmptyDigest 2 "a" [] none).map (fun r => r.1.next.length) = some 1 := by
  rfl

/-- C6 (amended): hashing a missing or non-regular file yields the empty
string rather than an error, and in any store none of whose records
carries an empty digest, the resulting empty-digest FileRecord matches no
entry, so a fresh fan-in or fan-out query anchored at such a file returns
a single childless leaf (hashing the anchor once). -/
theorem c6_empty_digest_leaf (ins : Inspector) (file : String)
    (hfs : ins.fs file = none)
    (hclean : ∀ c ∈ ins.log,
      (∀ f ∈ c.in_files, f.md5 ≠ "") ∧ (∀ f ∈ c.out_files, f.md5 ≠ "")) (n : Nat) :
    hash_of ins file = "" ∧
    faninFuel ins (n + 1) file [] none =
      some (FileDependency.mk (ins.work_path file) "" false [], [fileKey file ""], 1) ∧
    fanoutFuel ins (n + 1) file [] none =
      some (FileDependency.mk (ins.work_path file) "" true [], [fileKey file ""], 1) := by
  have hh : hash_of ins file = "" := by simp [hash_of, hfs]
  have hfd : digestOr ins none file = ("", 1) := by simp [digestOr, hh]
  have hnom : ∀ dir : Bool, ∀ c ∈ ins.log,
      (dirMatchFiles dir c).any (fun f => f.md5 == (digestOr ins none file).1) = false := by
    intro dir c hc
    have hne : ∀ f ∈ dirMatchFiles dir c, f.md5 ≠ "" := by
      cases dir
      · simpa [dirMatchFiles] using (hclean c hc).2
      · simpa [dirMatchFiles] using (hclean c hc).1
    rw [hfd]
    simp only [List.any_eq_false]
    intro f hf
    simp [hne f hf]
  refine ⟨hh, ?_, ?_⟩
  · have := fanFuel_leaf_of_nomatch ins false n file [] none
      (by simp) (hnom false)
    simpa [faninFuel, hfd] using this
  · have := fanFuel_leaf_of_nomatch ins true n file [] none
      (by simp) (hnom true)
    simpa [fanoutFuel, hfd] using this

/-- C6 amended witness: over the clean two-entry store, fan-in and fan-out
on the missing file `nofile` return childless leaves with the empty
digest. -/
theorem c6_empty_digest_leaf_witness :
    hash_of insW "nofile" = "" ∧
    faninFuel insW 1 "nofile" [] none =
      some (FileDependency.mk "nofile" "" false [], ["nofile:"], 1) ∧
    fanoutFuel insW 1 "nofile" [] none =
      some (FileDependency.mk "nofile" "" true [], ["nofile:"], 1) :=
  c6_empty_digest_leaf insW "nofile" rfl (by decide) 0

/-- C7 counterexample: the claim asserts the on-disk contents are hashed
only for the top-level anchor when no digest was supplied, never for a
record obtained from the store.  Over `insEmptyInput` — whose entry's input
set holds a record with an empty digest — the fan-in anchored at
(`o`, `D`) *with a supplied digest* still performs one `hash_of`
invocation: `digest or self.hash_of(file)` treats the record's empty
digest as absent and rehashes mid-traversal. -/
theorem c7_counterexample :
    (faninFuel insEmptyInput 2 "o" [] (some "D")).map (fun r => r.2.2) = some 1 := by
  rfl

/-- C7 (amended): when every record of the store carries a non-empty
digest, each recursive step passes the record's stored digest down and the
anchor's contents are hashed at most once: a fan-in or fan-out run with a
supplied non-empty digest performs no `hash_of` invocation at all, and a
run with no supplied digest performs exactly one (for the top-level
anchor). -/
theorem c7_hash_once (ins : Inspector)
    (hclean : ∀ c ∈ ins.log,
      (∀ f ∈ c.in_files, f.md5 ≠ "") ∧ (∀ f ∈ c.out_files, f.md5 ≠ ""))
    (n₁ : Nat) (file₁ : String) (cov₁ : List String) (D : String) (hD : D ≠ "")
    (r₁ : FileDependency × List String × Nat)
    (h₁ : faninFuel ins n₁ file₁ cov₁ (some D) = some r₁)
    (n₂ : Nat) (file₂ : String) (cov₂ : List String)
    (r₂ : FileDependency × List String × Nat)
    (h₂ : faninFuel ins n₂ file₂ cov₂ none = some r₂)
    (n₃ : Nat) (file₃ : String) (cov₃ : List String) (E : String) (hE : E ≠ "")
    (r₃ : FileDependency × List String × Nat)
    (h₃ : fanoutFuel ins n₃ file₃ cov₃ (some E) = some r₃)
    (n₄ : Nat) (file₄ : String) (cov₄ : List String)
    (r₄ : FileDependency × List String × Nat)
    (h₄ : fanoutFuel ins n₄ file₄ cov₄ none = some r₄) :
    r₁.2.2 = 0 ∧ r₂.2.2 = 1 ∧ r₃.2.2 = 0 ∧ r₄.2.2 = 1 := by
  have hcleanIn : ∀ c ∈ ins.log, ∀ f ∈ dirRecFiles false c, f.md5 ≠ "" := by
    intro c hc
    simpa [dirRecFiles] using (hclean c hc).1
  have hcleanOut : ∀ c ∈ ins.log, ∀ f ∈ dirRecFiles true c, f.md5 ≠ "" := by
    intro c hc
    simpa [dirRecFiles] using (hclean c hc).2
  exact ⟨fanFuel_hash ins false hcleanIn n₁ file₁ cov₁ D hD r₁ h₁,
    fanFuel_hash_none ins false hcleanIn n₂ file₂ cov₂ r₂ h₂,
    fanFuel_hash ins true hcleanOut n₃ file₃ cov₃ E hE r₃ h₃,
    fanFuel_hash_none ins true hcleanOut n₄ file₄ cov₄ r₄ h₄⟩

/-- C7 amended witness: over the clean two-entry store, the supplied-digest
runs hash nothing and the absent-digest runs hash exactly once. -/
theorem c7_hash_once_witness :
    (FileDependency.mk "p2" "D" false
      [CommandDependency.mk entry2 false [FileDependency.mk "i2" "B" false []],
       CommandDependency.mk entry1 false [FileDependency.mk "i1" "A" false []]],
      ["i1:A", "i2:B", "p2:D"], (0 : Nat)).2.2 = 0 ∧
    (FileDependency.mk "p2" "" false [], ["p2:"], (1 : Nat)).2.2 = 1 ∧
    (FileDependency.mk "i1" "A" true
      [CommandDependency.mk entry1 true [FileDependency.mk "p1" "D" true []]],
      ["p1:D", "i1:A"], (0 : Nat)).2.2 = 0 ∧
    (FileDependency.mk "i1" "" true [], ["i1:"], (1 : Nat)).2.2 = 1 :=
  c7_hash_once insW (by decide)
    2 "p2" [] "D" (by decide) _ rfl
    1 "p2" [] _ rfl
    2 "i1" [] "A" (by decide) _ rfl
    1 "i1" [] _ rfl

/-- C8: the visited set of one traversal is shared across every recursive
call: every expanded (path, digest) pair of the returned tree (a file node
carrying command children) has its visitation key recorded in the final
visited set and was unvisited when the call started, and no key is
expanded twice anywhere in the tree — also across sibling subtrees; and a
caller that passes the final visited set into a second call anchored at an
already-visited pair receives the childless anchor back.  (Both
directions; stated for inspectors whose path resolution is the identity,
so that tree nodes carry the visitation paths.) -/
theorem c8_visited_set_invariant (ins : Inspector) (hwp : ∀ p, ins.work_path p = p)
    (n₁ : Nat) (file₁ : String) (cov₁ : List String) (dg₁ : Option String)
    (dep₁ : FileDependency) (covF₁ : List String) (cnt₁ : Nat)
    (h₁ : faninFuel ins n₁ file₁ cov₁ dg₁ = some (dep₁, covF₁, cnt₁))
    (pr₁ : String × String) (hpr₁ : pr₁ ∈ fdExpanded dep₁)
    (n₂ : Nat) (file₂ : String) (cov₂ : List String) (dg₂ : Option String)
    (dep₂ : FileDependency) (covF₂ : List String) (cnt₂ : Nat)
    (h₂ : fanoutFuel ins n₂ file₂ cov₂ dg₂ = some (dep₂, covF₂, cnt₂))
    (pr₂ : String × String) (hpr₂ : pr₂ ∈ fdExpanded dep₂)
    (file₃ : String) (dg₃ : Option String) (m : Nat)
    (hk₃ : fileKey file₃ (digestOr ins dg₃ file₃).1 ∈ covF₁) :
    ((fdExpanded dep₁).map pairKey).Nodup ∧
    (pairKey pr₁ ∈ covF₁ ∧ pairKey pr₁ ∉ cov₁) ∧
    ((fdExpanded dep₂).map pairKey).Nodup ∧
    (pairKey pr₂ ∈ covF₂ ∧ pairKey pr₂ ∉ cov₂) ∧
    faninFuel ins (m + 1) file₃ covF₁ dg₃ =
      some (FileDependency.mk (ins.work_path file₃) (digestOr ins dg₃ file₃).1 false [],
        covF₁, (digestOr ins dg₃ file₃).2) := by
  have e1 := fanFuel_exp ins false hwp n₁ file₁ cov₁ dg₁ _ h₁
  have e2 := fanFuel_exp ins true hwp n₂ file₂ cov₂ dg₂ _ h₂
  exact ⟨e1.2, e1.1 pr₁ hpr₁, e2.2, e2.1 pr₂ hpr₂,
    fanFuel_visited ins false m file₃ covF₁ dg₃ hk₃⟩

/-- C8 witness: over the two-entry store, the fan-in at (`p2`, `D`) and
the fan-out at (`i1`, `A`) expand their anchors exactly once, the expanded
keys land in the final visited sets, and re-calling fan-in at (`p2`, `D`)
with the final visited set returns the childless anchor. -/
theorem c8_visited_set_invariant_witness :
    ((fdExpanded (FileDependency.mk "p2" "D" false
      [CommandDependency.mk entry2 false [FileDependency.mk "i2" "B" false []],
       CommandDependency.mk entry1 false [FileDependency.mk "i1" "A" false []]])).map
      pairKey).Nodup ∧
    (pairKey ("p2", "D") ∈ ["i1:A", "i2:B", "p2:D"] ∧
      pairKey ("p2", "D") ∉ ([] : List String)) ∧
    ((fdExpanded (FileDependency.mk "i1" "A" true
      [CommandDependency.mk entry1 true [FileDependency.mk "p1" "D" true []]])).map
      pairKey).Nodup ∧
    (pairKey ("i1", "A") ∈ ["p1:D", "i1:A"] ∧
      pairKey ("i1", "A") ∉ ([] : List String)) ∧
    faninFuel insW 1 "p2" ["i1:A", "i2:B", "p2:D"] (some "D") =
      some (FileDependency.mk "p2" "D" false [], ["i1:A", "i2:B", "p2:D"], 0) :=
  c8_visited_set_invariant insW (fun _ => rfl)
    2 "p2" [] (some "D")
    (FileDependency.mk "p2" "D" false
      [CommandDependency.mk entry2 false [FileDependency.mk "i2" "B" false []],
       CommandDependency.mk entry1 false [FileDependency.mk "i1" "A" false []]])
    ["i1:A", "i2:B", "p2:D"] 0 rfl ("p2", "D") (by decide)
    2 "i1" [] (some "A")
    (FileDependency.mk "i1" "A" true
      [CommandDependency.mk entry1 true [FileDependency.mk "p1" "D" true []]])
    ["p1:D", "i1:A"] 0 rfl ("i1", "A") (by decide)
    "p2" (some "D") 0 (by decide)

/-- C9: a recorded command execution (entries are only written to the log
when the exit code is 0, frontend.py:432-435, and the stream records are
collected under the same condition, frontend.py:256-263) carries a
synthetic `/dev/stdin` input record with the digest of the bytes read
whenever standard input was read and non-empty, and synthetic
`/dev/stdout` / `/dev/stderr` output records whenever the corresponding
stream produced at least one byte. -/
theorem c9_std_stream_records (name : String) (user_cmd : List String)
    (exit_code : Int) (hexit : exit_code = 0)
    (s t u : ToolStreamStat) :
    (0 < s.data_length →
      FileLog.mk "/dev/stdin" s.md5 ∈
        (container_exec_log name user_cmd exit_code (some s) (some t) u).in_files) ∧
    (0 < t.data_length →
      FileLog.mk "/dev/stdout" t.md5 ∈
        (container_exec_log name user_cmd exit_code (some s) (some t) u).out_files) ∧
    (0 < u.data_length →
      FileLog.mk "/dev/stderr" u.md5 ∈
        (container_exec_log name user_cmd exit_code (some s) (some t) u).out_files) := by
  subst hexit
  refine ⟨fun hs => ?_, fun ht => ?_, fun hu => ?_⟩
  · have hs' : s.data_length ≠ 0 := by omega
    simp [container_exec_log, hs']
  · have ht' : t.data_length ≠ 0 := by omega
    simp [container_exec_log, ht']
  · have hu' : u.data_length ≠ 0 := by omega
    simp [container_exec_log, hu']

/-- C9 witness: a successful run with one byte on each stream records all
three synthetic files. -/
theorem c9_std_stream_records_witness :
    FileLog.mk "/dev/stdin" "dI" ∈
      (container_exec_log "tool" ["arg"] 0 (some ⟨1, "dI"⟩) (some ⟨2, "dO"⟩)
        ⟨3, "dE"⟩).in_files ∧
    FileLog.mk "/dev/stdout" "dO" ∈
      (container_exec_log "tool" ["arg"] 0 (some ⟨1, "dI"⟩) (some ⟨2, "dO"⟩)
        ⟨3, "dE"⟩).out_files ∧
    FileLog.mk "/dev/stderr" "dE" ∈
      (container_exec_log "tool" ["arg"] 0 (some ⟨1, "dI"⟩) (some ⟨2, "dO"⟩)
        ⟨3, "dE"⟩).out_files := by
  have h := c9_std_stream_records "tool" ["arg"] 0 rfl ⟨1, "dI"⟩ ⟨2, "dO"⟩ ⟨3, "dE"⟩
  exact ⟨h.1 (by decide), h.2.1 (by decide), h.2.2 (by decide)⟩

/-- C10: rendering is a pure function of the tree: a file node's label is
its path followed by a space and the first 16 characters of the digest
when the digest is non-empty, or the path followed by a literal `/` when
it is empty; the children (rendered recursively and indented by a fixed
four-space margin inside `cdStrs`/`fdStrs`) are joined by a connector
glyph that contains `|` for fan-out nodes and `^` for fan-in nodes, for
both node kinds. -/
theorem c10_render_pure (f d : String) (o : Bool) (cs : List CommandDependency)
    (cmd : CommandLog) (ods : List FileDependency) :
    (fdStr (FileDependency.mk f d o cs) =
      (f ++ (if d = "" then "/" else " " ++ d.take 16)) ++
      (if cdStrs cs = [] then ""
       else (if o then "\n|-- " else "\n^-- ") ++
         String.intercalate (if o then "\n|-- " else "\n^-- ") (cdStrs cs))) ∧
    (cdStr (CommandDependency.mk cmd o ods) =
      (String.intercalate " " (quote_args cmd.command)) ++
      (if fdStrs ods = [] then ""
       else (if o then "\n|-->" else "\n^---") ++
         String.intercalate (if o then "\n|-->" else "\n^---") (fdStrs ods))) ∧
    ((if o then '|' else '^') ∈ (if o then "\n|-- " else "\n^-- ").toList) ∧
    ((if o then '|' else '^') ∈ (if o then "\n|-->" else "\n^---").toList) := by
  refine ⟨?_, ?_, ?_, ?_⟩
  · rw [fdStr]
  · rw [cdStr]
  · cases o
    · decide
    · decide
  · cases o
    · decide
    · decide
